import Mathlib

/-!
Verification development for the `codegent` command-line agent (main.go).

The development shallowly embeds the agent's core: the three filesystem
tools (`ReadFile`, `ListFiles`, `EditFile`), the JSON argument decoding
each tool performs, and the agent loop (`Run` / `executeTool`).

Modelling conventions:
* JSON values (the `json.RawMessage` payloads produced by marshalling the
  model's argument map) are the inductive `Json`.
* The filesystem seen by `read_file` and `edit_file` is a finite map from
  paths to file contents plus a set of directory paths (`FS`).  The OS
  primitives `os.ReadFile`, `os.WriteFile` and `os.MkdirAll` are embedded
  at that level: a read distinguishes content / not-exist / is-a-directory,
  a write stores the content, `MkdirAll` records the directory and its
  ancestors.
* The directory tree walked by `list_files` is the inductive `FsTree`;
  `filepath.WalkDir`'s documented lexical per-directory visiting order is
  embedded by sorting each directory's entries by name.
* Go strings are embedded as `String` (equivalently their `List Char`
  data); `strings.Replace(s, old, new, -1)` is `goReplaceAll`, including
  Go's empty-pattern semantics (insert before the first character and
  after every character).
* A Go `panic` (the type assertions `x.(string)` in `EditFile`'s
  malformed-input recovery branch can panic) is the outcome
  `ToolOutcome.panics`; it aborts the whole process, so the agent loop
  propagates it without producing any tool results.
-/

/-- A JSON value, as decoded from a `json.RawMessage`. -/
inductive Json where
  | null
  | str (s : String)
  | num (n : Int)
  | bool (b : Bool)
  | arr (elems : List Json)
  | obj (fields : List (String × Json))

/-- Look a key up in a JSON object's field list (argument maps produced by
the gateway have unique keys, so first match suffices). -/
def jsonLookup (k : String) : List (String × Json) → Option Json
  | [] => none
  | (k', v) :: rest => if k' = k then some v else jsonLookup k rest

/-- Outcome of running one tool `Function` plus the surrounding Go runtime
behaviour: a normal string result, an error result, or a runtime panic. -/
inductive ToolOutcome where
  | ok (s : String)
  | err (s : String)
  | panics
deriving DecidableEq

/-! ## Go `strings.Replace(s, old, new, -1)` -/

/-- `leadsWith n s` holds when list `n` is an initial segment of `s`
(Go `strings.HasPrefix` on the remaining input). -/
def leadsWith : List Char → List Char → Bool
  | [], _ => true
  | _ :: _, [] => false
  | a :: as, b :: bs => a = b && leadsWith as bs

/-- `occursIn n s` holds when `n` occurs as a contiguous substring of `s`
(Go `strings.Contains` for non-empty `n`). -/
def occursIn (n : List Char) : List Char → Bool
  | [] => leadsWith n []
  | c :: rest => leadsWith n (c :: rest) || occursIn n rest

/-- One pass of Go `strings.Replace` with a non-empty pattern `o :: os`:
leftmost, non-overlapping occurrences are each replaced by `new`.  The
`fuel` argument (instantiated with the input's length, which bounds the
recursion depth) keeps the recursion structural, so the function reduces
definitionally on concrete inputs. -/
def replaceNE (o : Char) (os new : List Char) : Nat → List Char → List Char
  | _, [] => []
  | 0, c :: rest => c :: rest
  | fuel + 1, c :: rest =>
    if leadsWith (o :: os) (c :: rest) then
      new ++ replaceNE o os new fuel (rest.drop os.length)
    else
      c :: replaceNE o os new fuel rest

/-- Go `strings.Replace(s, old, new, -1)` on character lists.  For an empty
pattern Go inserts `new` before the first character and after every
character of `s`. -/
def goReplaceAllL (s old new : List Char) : List Char :=
  match old with
  | [] => new ++ s.flatMap (fun c => c :: new)
  | o :: os => replaceNE o os new s.length s

/-- Go `strings.Replace(s, old, new, -1)` on strings. -/
def goReplaceAll (s old new : String) : String :=
  String.mk (goReplaceAllL s.data old.data new.data)

/-! ## The flat filesystem model used by `read_file` and `edit_file` -/

/-- The filesystem as visible to `os.ReadFile`/`os.WriteFile`/`os.MkdirAll`:
an association list from file path to content, plus the set of existing
directory paths. -/
structure FS where
  files : List (String × String)
  dirs : List String
deriving DecidableEq

/-- Result of `os.ReadFile`: the content, or the `IsNotExist` error, or a
non-`IsNotExist` error (reading a directory gives `EISDIR`). -/
inductive ReadResult where
  | content (c : String)
  | notExist
  | isDir
deriving DecidableEq

/-- `os.ReadFile` against the model filesystem. -/
def fsRead (fs : FS) (p : String) : ReadResult :=
  match fs.files.lookup p with
  | some c => .content c
  | none => if p ∈ fs.dirs then .isDir else .notExist

/-- Insert or overwrite a key in an association list. -/
def insertAssoc (p c : String) : List (String × String) → List (String × String)
  | [] => [(p, c)]
  | (q, d) :: rest => if q = p then (p, c) :: rest else (q, d) :: insertAssoc p c rest

/-- `os.WriteFile` against the model filesystem. -/
def fsWrite (fs : FS) (p c : String) : FS :=
  { fs with files := insertAssoc p c fs.files }

/-! ## Go `path.Clean` and `path.Dir` (used by `createNewFile`) -/

/-- Split a character list on `'/'` (the separator handling inside
Go `path.Clean`). -/
def splitOnSlash : List Char → List (List Char)
  | [] => [[]]
  | c :: rest =>
    if c = '/' then [] :: splitOnSlash rest
    else
      match splitOnSlash rest with
      | [] => [[c]]
      | comp :: comps => (c :: comp) :: comps

/-- The element-stack loop of Go `path.Clean`: drops empty and `.`
components, resolves `..` against the stack. -/
def cleanComps (rooted : Bool) : List (List Char) → List (List Char) → List (List Char)
  | acc, [] => acc
  | acc, comp :: comps =>
    if comp = [] ∨ comp = ['.'] then cleanComps rooted acc comps
    else if comp = ['.', '.'] then
      match acc with
      | [] => if rooted then cleanComps rooted [] comps
              else cleanComps rooted [['.', '.']] comps
      | top :: rest =>
          if top = ['.', '.'] then cleanComps rooted (comp :: acc) comps
          else cleanComps rooted rest comps
    else cleanComps rooted (comp :: acc) comps

/-- Join components with `'/'`. -/
def joinSlash : List (List Char) → List Char
  | [] => []
  | [comp] => comp
  | comp :: comps => comp ++ '/' :: joinSlash comps

/-- Go `path.Clean`. -/
def goPathClean (p : String) : String :=
  match p.data with
  | [] => "."
  | c :: rest =>
    let rooted := c = '/'
    let parts := (cleanComps rooted [] (splitOnSlash (c :: rest))).reverse
    if parts = [] then (if rooted then "/" else ".")
    else String.mk ((if rooted then ['/'] else []) ++ joinSlash parts)

/-- Go `path.Dir`: everything up to and including the final slash, cleaned
(`path.Split` followed by `path.Clean`). -/
def goPathDir (p : String) : String :=
  goPathClean (String.mk ((p.data.reverse.dropWhile (fun c => ¬ c = '/')).reverse))

/-- The chain of directories `os.MkdirAll` brings into existence: the
directory itself and each of its ancestors, stopping at `.`, `/` or the
empty path.  Fuel is the path length, which bounds the chain. -/
def dirChain : Nat → String → List String
  | 0, _ => []
  | fuel + 1, d =>
    if d = "." ∨ d = "/" ∨ d = "" then []
    else d :: dirChain fuel (goPathDir d)

/-- `os.MkdirAll d` against the model filesystem's directory set. -/
def mkdirAllDirs (d : String) (dirs : List String) : List String :=
  dirChain (d.length + 1) d ++ dirs

/-! ## `edit_file`: argument decoding and the tool itself -/

/-- The `EditFileInput` struct of the source. -/
structure EditFileInput where
  path : String
  oldStr : String
  newStr : String
deriving DecidableEq

/-- Decode one string-typed struct field from a JSON object the way
`encoding/json` does: a missing key or `null` leaves the zero value `""`;
a string sets the field; any other type is an `UnmarshalTypeError`. -/
def getStrField (k : String) (kvs : List (String × Json)) : Option String :=
  match jsonLookup k kvs with
  | none => some ""
  | some .null => some ""
  | some (.str s) => some s
  | some _ => none

/-- `json.Unmarshal(input, &editFileInput)`: succeeds on `null` (leaving
zero values) and on objects whose present `path`/`old_str`/`new_str`
fields are strings or `null`; fails otherwise. -/
def structDecodeEditFileInput (input : Json) : Option EditFileInput :=
  match input with
  | .null => some ⟨"", "", ""⟩
  | .obj kvs => do
    let p ← getStrField "path" kvs
    let o ← getStrField "old_str" kvs
    let n ← getStrField "new_str" kvs
    pure ⟨p, o, n⟩
  | _ => none

/-- The recovery branch of `EditFile` for inputs whose struct decode
failed but which re-parse as a JSON object (`partialInput`): missing or
empty `path` defaults to `./fizzbuzz.js`; present fields go through Go
type assertions `x.(string)`, which panic (result `none`) on any non-string
non-null value — including `null` for `path`, since `nil != ""`. -/
def recoverEditFileInput (kvs : List (String × Json)) : Option EditFileInput := do
  let p ← match jsonLookup "path" kvs with
    | none => some "./fizzbuzz.js"
    | some (.str s) => if s = "" then some "./fizzbuzz.js" else some s
    | some _ => none
  let o ← match jsonLookup "old_str" kvs with
    | none => some ""
    | some .null => some ""
    | some (.str s) => some s
    | some _ => none
  let n ← match jsonLookup "new_str" kvs with
    | none => some ""
    | some .null => some ""
    | some (.str s) => some s
    | some _ => none
  pure ⟨p, o, n⟩

/-- `createNewFile` of the source: make the parent directory chain unless
it is `.`, then write the file. -/
def createNewFile (p content : String) (fs : FS) : ToolOutcome × FS :=
  let d := goPathDir p
  let fs' := if d ≠ "." then { fs with dirs := mkdirAllDirs d fs.dirs } else fs
  (.ok ("Successfully created file " ++ p), fsWrite fs' p content)

/-- The body of `EditFile` after a successfully decoded (or recovered)
input: default the empty path to `./failed.txt`, reject `old_str = new_str`
for non-empty `old_str`, then create or rewrite the file. -/
def editCore (e : EditFileInput) (fs : FS) : ToolOutcome × FS :=
  let path := if e.path = "" then "./failed.txt" else e.path
  if e.oldStr = e.newStr ∧ e.oldStr ≠ "" then
    (.err "old_str and new_str must be different", fs)
  else
    match fsRead fs path with
    | .content c =>
      let newContent := goReplaceAll c e.oldStr e.newStr
      if c = newContent ∧ e.oldStr ≠ "" then
        (.err "old_str not found in file", fs)
      else
        (.ok ("File " ++ path ++ " updated successfully"), fsWrite fs path newContent)
    | .notExist =>
      if e.oldStr ≠ "" then
        (.err "file does not exist and old_str is not empty", fs)
      else
        createNewFile path e.newStr fs
    | .isDir => (.err "read error: is a directory", fs)

/-- The `EditFile` tool `Function`: struct decode; on failure retry as a
generic JSON object and run the default-guessing recovery (whose type
assertions may panic); a payload that is not an object at all is rejected
as `invalid input format`. -/
def EditFile (input : Json) (fs : FS) : ToolOutcome × FS :=
  match structDecodeEditFileInput input with
  | some e => editCore e fs
  | none =>
    match input with
    | .obj kvs =>
      match recoverEditFileInput kvs with
      | some e => editCore e fs
      | none => (.panics, fs)
    | _ => (.err "invalid input format: json unmarshal error", fs)

/-- The well-formed `edit_file` payload `{path, old_str, new_str}`. -/
def editPayload (p o n : String) : Json :=
  .obj [("path", .str p), ("old_str", .str o), ("new_str", .str n)]

/-! ## Properties of the replacement function -/

theorem leadsWith_iff (n s : List Char) : leadsWith n s = true ↔ ∃ t, s = n ++ t := by
  induction n generalizing s with
  | nil => simp [leadsWith]
  | cons a as ih =>
    cases s with
    | nil => simp [leadsWith]
    | cons b bs =>
      simp only [leadsWith, Bool.and_eq_true, decide_eq_true_eq, ih]
      constructor
      · rintro ⟨rfl, t, rfl⟩; exact ⟨t, rfl⟩
      · rintro ⟨t, h⟩
        cases h
        exact ⟨rfl, t, rfl⟩

theorem occursIn_iff (n s : List Char) : occursIn n s = true ↔ ∃ p q, s = p ++ n ++ q := by
  induction s with
  | nil =>
    simp only [occursIn, leadsWith_iff]
    constructor
    · rintro ⟨t, h⟩
      rcases List.append_eq_nil.mp h.symm with ⟨h1, h2⟩
      exact ⟨[], [], by simp [h1]⟩
    · rintro ⟨p, q, h⟩
      rcases List.append_eq_nil.mp (List.append_eq_nil.mp h.symm).1 with ⟨h1, h2⟩
      exact ⟨[], by simp [h2]⟩
  | cons c rest ih =>
    simp only [occursIn, Bool.or_eq_true, leadsWith_iff, ih]
    constructor
    · rintro (⟨t, h⟩ | ⟨p, q, h⟩)
      · exact ⟨[], t, by simp [h]⟩
      · exact ⟨c :: p, q, by simp [h]⟩
    · rintro ⟨p, q, h⟩
      cases p with
      | nil => exact Or.inl ⟨q, by simpa using h⟩
      | cons c' p' =>
        simp only [List.cons_append, List.cons.injEq] at h
        exact Or.inr ⟨p', q, h.2⟩

theorem leadsWith_split {o : Char} {os rest : List Char} {c : Char}
    (h : leadsWith (o :: os) (c :: rest) = true) :
    c :: rest = (o :: os) ++ rest.drop os.length := by
  rcases (leadsWith_iff (o :: os) (c :: rest)).mp h with ⟨t, ht⟩
  simp only [List.cons_append, List.cons.injEq] at ht
  obtain ⟨rfl, rfl⟩ := ht
  simp [List.drop_left]

theorem replaceNE_eq_self (o : Char) (os new : List Char) :
    ∀ fuel s, s.length ≤ fuel → occursIn (o :: os) s = false →
      replaceNE o os new fuel s = s := by
  intro fuel
  induction fuel with
  | zero =>
    intro s hf h
    cases s with
    | nil => rfl
    | cons c rest => simp at hf
  | succ fuel ih =>
    intro s hf h
    cases s with
    | nil => rfl
    | cons c rest =>
      simp only [occursIn, Bool.or_eq_false_iff] at h
      simp only [replaceNE, if_neg (by simp [h.1] : ¬leadsWith (o :: os) (c :: rest) = true)]
      rw [ih rest (by simpa using hf) h.2]

theorem replaceNE_length (o : Char) (os new : List Char) :
    ∀ fuel s, s.length ≤ fuel →
      ∃ k, (replaceNE o os new fuel s).length + k * (os.length + 1) =
        s.length + k * new.length := by
  intro fuel
  induction fuel with
  | zero =>
    intro s hf
    cases s with
    | nil => exact ⟨0, by simp [replaceNE]⟩
    | cons c rest => simp at hf
  | succ fuel ih =>
    intro s hf
    cases s with
    | nil => exact ⟨0, by simp [replaceNE]⟩
    | cons c rest =>
      by_cases hlw : leadsWith (o :: os) (c :: rest) = true
      · have hsplit := leadsWith_split hlw
        have hdroplen : (rest.drop os.length).length ≤ fuel := by
          have := List.length_drop os.length rest
          simp only [List.length_cons] at hf
          omega
        obtain ⟨k, hk⟩ := ih (rest.drop os.length) hdroplen
        refine ⟨k + 1, ?_⟩
        simp only [replaceNE, if_pos hlw]
        have hlen : rest.length = os.length + (rest.drop os.length).length := by
          have := congrArg List.length hsplit
          simpa using this
        simp only [List.length_append, List.length_cons, Nat.succ_mul]
        generalize k * (os.length + 1) = A at hk
        generalize k * new.length = B at hk
        omega
      · obtain ⟨k, hk⟩ := ih rest (by simp only [List.length_cons] at hf; omega)
        refine ⟨k, ?_⟩
        simp only [replaceNE, if_neg hlw]
        simp only [List.length_cons]
        generalize k * (os.length + 1) = A at hk
        generalize k * new.length = B at hk
        omega

theorem replaceNE_ne (o : Char) (os new : List Char) :
    ∀ fuel s, s.length ≤ fuel → occursIn (o :: os) s = true → o :: os ≠ new →
      replaceNE o os new fuel s ≠ s := by
  intro fuel
  induction fuel with
  | zero =>
    intro s hf hocc hne
    cases s with
    | nil => simp [occursIn, leadsWith] at hocc
    | cons c rest => simp at hf
  | succ fuel ih =>
    intro s hf hocc hne
    cases s with
    | nil => simp [occursIn, leadsWith] at hocc
    | cons c rest =>
      by_cases hlw : leadsWith (o :: os) (c :: rest) = true
      · have hsplit := leadsWith_split hlw
        simp only [replaceNE, if_pos hlw]
        intro heq
        by_cases hN : new.length = os.length + 1
        · have hlen : new.length = (o :: os).length := by simpa using hN
          rw [hsplit] at heq
          have := List.append_inj heq hlen
          exact hne this.1.symm
        · have h1 := congrArg List.length heq
          simp only [List.length_append, List.length_cons] at h1
          have hdroplen : (rest.drop os.length).length ≤ fuel := by
            have := List.length_drop os.length rest
            simp only [List.length_cons] at hf
            omega
          obtain ⟨k, hk⟩ := replaceNE_length o os new fuel (rest.drop os.length) hdroplen
          have hlen : rest.length = os.length + (rest.drop os.length).length := by
            have := congrArg List.length hsplit
            simpa using this
          zify at h1 hk hlen
          have hfact : ((k : Int) + 1) * ((os.length : Int) + 1 - new.length) = 0 := by
            linear_combination hk - h1 - hlen
          rcases mul_eq_zero.mp hfact with hz | hz
          · omega
          · exact hN (by omega)
      · simp only [occursIn, Bool.or_eq_true] at hocc
        rcases hocc with h | h
        · exact absurd h hlw
        · simp only [replaceNE, if_neg hlw]
          intro heq
          exact ih rest (by simp only [List.length_cons] at hf; omega) h hne
            (by simpa using heq)

theorem not_occurs_of_eq_false {n s : List Char} (h : occursIn n s = false) :
    ¬ ∃ p q, s = p ++ n ++ q := by
  intro hex
  rw [(occursIn_iff n s).mpr hex] at h
  simp at h

theorem string_data_ne {a b : String} (h : a ≠ b) : a.data ≠ b.data := by
  intro hd
  cases a
  cases b
  exact h (congrArg String.mk hd)

theorem data_cons_of_ne_empty {s : String} (h : s ≠ "") :
    ∃ o os, s.data = o :: os := by
  cases s with
  | mk data =>
    cases data with
    | nil => exact absurd rfl h
    | cons o os => exact ⟨o, os, rfl⟩

theorem goReplaceAll_eq_of_not_occurs (C old new : String) (ho : old ≠ "")
    (h : ¬ ∃ p q, C.data = p ++ old.data ++ q) : goReplaceAll C old new = C := by
  obtain ⟨o, os, hd⟩ := data_cons_of_ne_empty ho
  have hocc : occursIn (o :: os) C.data = false := by
    rw [Bool.eq_false_iff]
    intro hT
    exact h (by rw [hd]; exact (occursIn_iff _ _).mp hT)
  rw [goReplaceAll, hd, goReplaceAllL,
    replaceNE_eq_self o os new.data C.data.length C.data le_rfl hocc]

theorem goReplaceAll_ne_of_occurs (C old new : String) (ho : old ≠ "")
    (hne : old ≠ new) (h : ∃ p q, C.data = p ++ old.data ++ q) :
    goReplaceAll C old new ≠ C := by
  obtain ⟨o, os, hd⟩ := data_cons_of_ne_empty ho
  have hocc : occursIn (o :: os) C.data = true := by
    rw [← hd]; exact (occursIn_iff _ _).mpr h
  have hnew : o :: os ≠ new.data := by
    rw [← hd]; exact string_data_ne hne
  intro heq
  apply replaceNE_ne o os new.data C.data.length C.data le_rfl hocc hnew
  have := congrArg String.data heq
  rw [goReplaceAll, hd, goReplaceAllL] at this
  simpa using this

/-! ## Association-list and decoding lemmas -/

theorem lookup_insertAssoc_self (p c : String) (l : List (String × String)) :
    (insertAssoc p c l).lookup p = some c := by
  induction l with
  | nil => simp [insertAssoc]
  | cons hd tl ih =>
    obtain ⟨q, d⟩ := hd
    by_cases hq : q = p
    · simp [insertAssoc, hq]
    · simp only [insertAssoc, if_neg hq, List.lookup_cons]
      rw [show (p == q) = false from beq_eq_false_iff_ne.mpr (Ne.symm hq)]
      exact ih

theorem lookup_insertAssoc_ne (p c r : String) (l : List (String × String))
    (h : r ≠ p) : (insertAssoc p c l).lookup r = l.lookup r := by
  induction l with
  | nil => simp [insertAssoc, h]
  | cons hd tl ih =>
    obtain ⟨q, d⟩ := hd
    by_cases hq : q = p
    · have hrq : r ≠ q := fun e => h (e.trans hq)
      simp only [insertAssoc, if_pos hq, List.lookup_cons]
      rw [show (r == p) = false from beq_eq_false_iff_ne.mpr h,
        show (r == q) = false from beq_eq_false_iff_ne.mpr hrq]
    · simp only [insertAssoc, if_neg hq, List.lookup_cons]
      by_cases hr : r = q
      · rw [show (r == q) = true from beq_iff_eq.mpr hr]
      · rw [show (r == q) = false from beq_eq_false_iff_ne.mpr hr]
        exact ih

theorem structDecode_editPayload (p o n : String) :
    structDecodeEditFileInput (editPayload p o n) = some ⟨p, o, n⟩ := by
  simp [structDecodeEditFileInput, editPayload, getStrField, jsonLookup]

theorem editFile_payload (p o n : String) (fs : FS) :
    EditFile (editPayload p o n) fs = editCore ⟨p, o, n⟩ fs := by
  simp [EditFile, structDecode_editPayload]

/-! ## Behaviour of `editCore` on the main paths -/

theorem editCore_replace (p C old new : String) (fs : FS) (hp : p ≠ "")
    (hlook : fs.files.lookup p = some C) (ho : old ≠ "") (hne : old ≠ new)
    (hocc : ∃ pre post, C.data = pre ++ old.data ++ post) :
    editCore ⟨p, old, new⟩ fs =
      (.ok ("File " ++ p ++ " updated successfully"),
        fsWrite fs p (goReplaceAll C old new)) := by
  have hrep : goReplaceAll C old new ≠ C := goReplaceAll_ne_of_occurs C old new ho hne hocc
  simp only [editCore, if_neg hp, fsRead, hlook]
  rw [if_neg (by rintro ⟨h1, -⟩; exact hne h1)]
  rw [if_neg (by rintro ⟨h1, -⟩; exact hrep h1.symm)]

theorem editCore_noMatch (p C old new : String) (fs : FS) (hp : p ≠ "")
    (hlook : fs.files.lookup p = some C) (ho : old ≠ "") (hne : old ≠ new)
    (hnocc : ¬ ∃ pre post, C.data = pre ++ old.data ++ post) :
    editCore ⟨p, old, new⟩ fs = (.err "old_str not found in file", fs) := by
  simp only [editCore, if_neg hp, fsRead, hlook]
  rw [if_neg (by rintro ⟨h1, -⟩; exact hne h1)]
  rw [if_pos ⟨(goReplaceAll_eq_of_not_occurs C old new ho hnocc).symm, ho⟩]

theorem editCore_empty_path (o n : String) (fs : FS) :
    editCore ⟨"", o, n⟩ fs = editCore ⟨"./failed.txt", o, n⟩ fs := by
  simp [editCore]

theorem createNewFile_spec (p X : String) (fs : FS) :
    (createNewFile p X fs).1 = .ok ("Successfully created file " ++ p) ∧
    (createNewFile p X fs).2.files.lookup p = some X ∧
    (∀ q, q ≠ p → (createNewFile p X fs).2.files.lookup q = fs.files.lookup q) ∧
    (goPathDir p ≠ "." →
      ∀ d ∈ dirChain ((goPathDir p).length + 1) (goPathDir p),
        d ∈ (createNewFile p X fs).2.dirs) := by
  have hfiles : (if goPathDir p ≠ "." then
      { fs with dirs := mkdirAllDirs (goPathDir p) fs.dirs } else fs).files = fs.files := by
    split <;> rfl
  refine ⟨rfl, lookup_insertAssoc_self _ _ _, ?_, ?_⟩
  · intro q hq
    show (insertAssoc p X _).lookup q = _
    rw [lookup_insertAssoc_ne _ _ _ _ hq, hfiles]
  · intro hd d hmem
    show d ∈ (if goPathDir p ≠ "." then
      { fs with dirs := mkdirAllDirs (goPathDir p) fs.dirs } else fs).dirs
    rw [if_pos hd]
    exact List.mem_append_left _ hmem

/-! ## Claims about `edit_file` -/

/-- C2 (code bug evaluation): a payload whose argument map fails to convert
to `EditFileInput`'s shape is not surfaced as a failure payload: a missing
required `path` is silently defaulted to `./failed.txt` and acted upon
(first conjunct), and a wrong-typed field makes the recovery branch panic
instead of returning a failure (second conjunct). -/
theorem claim_C2_conversion_failure_evaluation :
    EditFile (Json.obj [("old_str", Json.str ""), ("new_str", Json.str "hello")]) ⟨[], []⟩ =
      (.ok "Successfully created file ./failed.txt", ⟨[("./failed.txt", "hello")], []⟩) ∧
    EditFile (Json.obj [("path", Json.str "x.txt"), ("old_str", Json.num 5),
        ("new_str", Json.str "y")]) ⟨[], []⟩ = (.panics, ⟨[], []⟩) :=
  ⟨rfl, rfl⟩

/-- C3 (amended: for non-empty paths): `edit_file` with empty `old` on a
non-existent path creates the file with exactly content `X`, reports the
"created" result, leaves all other files untouched and brings the whole
missing parent directory chain into existence. -/
theorem claim_C3_create_file (p X : String) (fs : FS) (hp : p ≠ "")
    (hfile : fs.files.lookup p = none) (hdir : p ∉ fs.dirs) :
    ∃ fs', EditFile (editPayload p "" X) fs =
        (.ok ("Successfully created file " ++ p), fs') ∧
      fs'.files.lookup p = some X ∧
      (∀ q, q ≠ p → fs'.files.lookup q = fs.files.lookup q) ∧
      (goPathDir p ≠ "." →
        ∀ d ∈ dirChain ((goPathDir p).length + 1) (goPathDir p), d ∈ fs'.dirs) := by
  rw [editFile_payload]
  simp only [editCore, if_neg hp, fsRead, hfile]
  rw [if_neg (by rintro ⟨-, h2⟩; exact h2 rfl)]
  rw [if_neg hdir]
  rw [if_neg (by intro h; exact h rfl)]
  obtain ⟨h1, h2, h3, h4⟩ := createNewFile_spec p X fs
  refine ⟨(createNewFile p X fs).2, ?_, h2, h3, h4⟩
  rw [← h1]

/-- C3 counterexample: at the path `""` (which never exists) the tool does
not create `""`; it redirects the edit to the default `./failed.txt`, so
afterwards `""` still does not exist. -/
theorem claim_C3_counterexample :
    EditFile (editPayload "" "" "hi") ⟨[], []⟩ =
      (.ok "Successfully created file ./failed.txt", ⟨[("./failed.txt", "hi")], []⟩) ∧
    (EditFile (editPayload "" "" "hi") ⟨[], []⟩).2.files.lookup "" = none :=
  ⟨rfl, rfl⟩

/-- Witness for C3 at a concrete nested path. -/
theorem claim_C3_witness :
    ∃ fs', EditFile (editPayload "a/b/new.txt" "" "content") ⟨[], []⟩ =
        (.ok ("Successfully created file " ++ "a/b/new.txt"), fs') ∧
      fs'.files.lookup "a/b/new.txt" = some "content" ∧
      (∀ q, q ≠ "a/b/new.txt" → fs'.files.lookup q = (FS.mk [] []).files.lookup q) ∧
      (goPathDir "a/b/new.txt" ≠ "." →
        ∀ d ∈ dirChain ((goPathDir "a/b/new.txt").length + 1) (goPathDir "a/b/new.txt"),
          d ∈ fs'.dirs) :=
  claim_C3_create_file "a/b/new.txt" "content" ⟨[], []⟩ (by decide) rfl (by simp)

/-- C4 (amended): replacing a non-empty `old` that occurs in the content
succeeds and writes back the content with all leftmost non-overlapping
occurrences replaced; if the written content no longer contains `old`,
re-applying the same edit fails with `NoMatch` and changes nothing. -/
theorem claim_C4_replace_all (p C old new : String) (fs : FS) (hp : p ≠ "")
    (hlook : fs.files.lookup p = some C) (ho : old ≠ "") (hne : old ≠ new)
    (hocc : ∃ pre post, C.data = pre ++ old.data ++ post) :
    EditFile (editPayload p old new) fs =
      (.ok ("File " ++ p ++ " updated successfully"),
        fsWrite fs p (goReplaceAll C old new)) ∧
    ((¬ ∃ pre post, (goReplaceAll C old new).data = pre ++ old.data ++ post) →
      EditFile (editPayload p old new) (fsWrite fs p (goReplaceAll C old new)) =
        (.err "old_str not found in file", fsWrite fs p (goReplaceAll C old new))) := by
  constructor
  · rw [editFile_payload]
    exact editCore_replace p C old new fs hp hlook ho hne hocc
  · intro hnocc
    rw [editFile_payload]
    exact editCore_noMatch p (goReplaceAll C old new) old new _ hp
      (lookup_insertAssoc_self _ _ _) ho hne hnocc

/-- C4 counterexample: with content `"aaaa"`, `old = "aa"`, `new = "a"`,
`new` contains no occurrence of `old`, yet after the first edit the file
holds `"aa"`, and re-applying the same edit still finds `old` and succeeds
again — refuting "re-applying the same edit no longer finds old". -/
theorem claim_C4_counterexample :
    (¬ ∃ pre post, "a".data = pre ++ "aa".data ++ post) ∧
    EditFile (editPayload "f.txt" "aa" "a") ⟨[("f.txt", "aaaa")], []⟩ =
      (.ok "File f.txt updated successfully", ⟨[("f.txt", "aa")], []⟩) ∧
    EditFile (editPayload "f.txt" "aa" "a") ⟨[("f.txt", "aa")], []⟩ =
      (.ok "File f.txt updated successfully", ⟨[("f.txt", "a")], []⟩) :=
  ⟨not_occurs_of_eq_false (by decide), rfl, rfl⟩

/-- Witness for C4 at a concrete input whose replacement result no longer
contains `old`, so the re-application clause fires as well. -/
theorem claim_C4_witness :
    EditFile (editPayload "g.txt" "world" "WORLD") ⟨[("g.txt", "hello world")], []⟩ =
      (.ok ("File " ++ "g.txt" ++ " updated successfully"),
        fsWrite ⟨[("g.txt", "hello world")], []⟩ "g.txt"
          (goReplaceAll "hello world" "world" "WORLD")) ∧
    EditFile (editPayload "g.txt" "world" "WORLD")
        (fsWrite ⟨[("g.txt", "hello world")], []⟩ "g.txt"
          (goReplaceAll "hello world" "world" "WORLD")) =
      (.err "old_str not found in file",
        fsWrite ⟨[("g.txt", "hello world")], []⟩ "g.txt"
          (goReplaceAll "hello world" "world" "WORLD")) := by
  have h := claim_C4_replace_all "g.txt" "hello world" "world" "WORLD"
    ⟨[("g.txt", "hello world")], []⟩ (by decide) rfl (by decide) (by decide)
    ⟨"hello ".data, [], by decide⟩
  exact ⟨h.1, h.2 (not_occurs_of_eq_false (by decide))⟩

/-- C5: a non-empty `old` absent from the file's content makes `edit_file`
fail with the `NoMatch` error, and the filesystem — in particular the
file's content — is byte-for-byte unchanged. -/
theorem claim_C5_noMatch (p C old new : String) (fs : FS) (hp : p ≠ "")
    (hlook : fs.files.lookup p = some C) (ho : old ≠ "") (hne : old ≠ new)
    (hnocc : ¬ ∃ pre post, C.data = pre ++ old.data ++ post) :
    EditFile (editPayload p old new) fs = (.err "old_str not found in file", fs) := by
  rw [editFile_payload]
  exact editCore_noMatch p C old new fs hp hlook ho hne hnocc

/-- Witness for C5. -/
theorem claim_C5_witness :
    EditFile (editPayload "notes.txt" "zz" "y") ⟨[("notes.txt", "hello world")], []⟩ =
      (.err "old_str not found in file", ⟨[("notes.txt", "hello world")], []⟩) :=
  claim_C5_noMatch "notes.txt" "hello world" "zz" "y" ⟨[("notes.txt", "hello world")], []⟩
    (by decide) rfl (by decide) (by decide) (not_occurs_of_eq_false (by decide))

/-- C6: `old = new ≠ ""` is rejected with the `InvalidArgs` error before
any filesystem access, regardless of whether the file exists, and the
filesystem is returned unchanged. -/
theorem claim_C6_invalidArgs (p X : String) (fs : FS) (hX : X ≠ "") :
    EditFile (editPayload p X X) fs =
      (.err "old_str and new_str must be different", fs) := by
  rw [editFile_payload]
  simp [editCore, hX]

/-- Witness for C6 (on a filesystem where the file does not exist, and the
path would even be defaulted — the check still fires first). -/
theorem claim_C6_witness :
    EditFile (editPayload "nope.txt" "x" "x") ⟨[], []⟩ =
      (.err "old_str and new_str must be different", ⟨[], []⟩) :=
  claim_C6_invalidArgs "nope.txt" "x" ⟨[], []⟩ (by decide)

/-- C9 (amended): a well-formed payload with `path` absent or empty behaves
exactly as one with the substituted default path `./failed.txt`.  (The
recovery branch for wrong-typed payloads assigns `./fizzbuzz.js` but then
always panics before performing any edit — see the counterexample.) -/
theorem claim_C9_default_path (o n : String) (fs : FS) :
    EditFile (Json.obj [("old_str", Json.str o), ("new_str", Json.str n)]) fs =
      EditFile (editPayload "./failed.txt" o n) fs ∧
    EditFile (editPayload "" o n) fs = EditFile (editPayload "./failed.txt" o n) fs := by
  constructor
  · have hdec : structDecodeEditFileInput
        (Json.obj [("old_str", Json.str o), ("new_str", Json.str n)]) =
          some ⟨"", o, n⟩ := by
      simp [structDecodeEditFileInput, getStrField, jsonLookup]
    simp only [EditFile, hdec, structDecode_editPayload]
    exact editCore_empty_path o n fs
  · simp only [editFile_payload]
    exact editCore_empty_path o n fs

/-- C9 counterexample: a payload that fails struct decoding but parses as
a JSON object does not perform the edit against `./fizzbuzz.js`: the
recovery branch panics on the wrong-typed field's type assertion, leaving
the filesystem untouched. -/
theorem claim_C9_counterexample :
    EditFile (Json.obj [("old_str", Json.num 5), ("new_str", Json.str "x")]) ⟨[], []⟩ =
      (.panics, ⟨[], []⟩) :=
  rfl

/-- C10: empty `old` on an existing file is accepted: the empty-pattern
replacement inserts `new` before the first and after every character, the
result is written back and the call succeeds; with `new` also empty the
content is rewritten unchanged and the call still succeeds. -/
theorem claim_C10_empty_old (p C X : String) (fs : FS) (hp : p ≠ "")
    (hlook : fs.files.lookup p = some C) :
    EditFile (editPayload p "" X) fs =
      (.ok ("File " ++ p ++ " updated successfully"),
        fsWrite fs p (goReplaceAll C "" X)) ∧
    (goReplaceAll C "" X).data = X.data ++ C.data.flatMap (fun c => c :: X.data) ∧
    goReplaceAll C "" "" = C := by
  refine ⟨?_, rfl, ?_⟩
  · rw [editFile_payload]
    simp only [editCore, if_neg hp, fsRead, hlook]
    rw [if_neg (by rintro ⟨-, h2⟩; exact h2 rfl)]
    rw [if_neg (by rintro ⟨-, h2⟩; exact h2 rfl)]
  · cases C with
    | mk data =>
      apply congrArg String.mk
      simp [goReplaceAllL]

/-- Witness for C10. -/
theorem claim_C10_witness :
    EditFile (editPayload "f.txt" "" "xy") ⟨[("f.txt", "ab")], []⟩ =
      (.ok ("File " ++ "f.txt" ++ " updated successfully"),
        fsWrite ⟨[("f.txt", "ab")], []⟩ "f.txt" (goReplaceAll "ab" "" "xy")) ∧
    (goReplaceAll "ab" "" "xy").data =
      "xy".data ++ "ab".data.flatMap (fun c => c :: "xy".data) ∧
    goReplaceAll "ab" "" "" = "ab" :=
  claim_C10_empty_old "f.txt" "ab" "xy" ⟨[("f.txt", "ab")], []⟩ (by decide) rfl

/-! ## The directory tree walked by `list_files` -/

inductive FsTree where
  | file (content : String)
  | dir (entries : List (String × FsTree))

/-- Byte-wise name comparison used by `filepath.WalkDir`'s lexical ordering
(UTF-8 byte order coincides with code-point order). -/
def nameLe : List Char → List Char → Bool
  | [], _ => true
  | _ :: _, [] => false
  | a :: as, b :: bs => if a = b then nameLe as bs else decide (a < b)

def insertEntry (e : String × FsTree) : List (String × FsTree) → List (String × FsTree)
  | [] => [e]
  | f :: fs => if nameLe e.1.data f.1.data then e :: f :: fs else f :: insertEntry e fs

/-- The lexical per-directory visiting order of `filepath.WalkDir`
(directory entries sorted by name). -/
def sortEntries : List (String × FsTree) → List (String × FsTree)
  | [] => []
  | e :: es => insertEntry e (sortEntries es)

mutual

/-- Size of a tree, used as recursion fuel for the walk. -/
def treeSize : FsTree → Nat
  | .file _ => 1
  | .dir es => 1 + entriesSize es

/-- Size of an entry list, used as recursion fuel for the walk. -/
def entriesSize : List (String × FsTree) → Nat
  | [] => 1
  | (_, t) :: rest => 1 + treeSize t + entriesSize rest

end

/-- The recursive enumeration of `ListFiles`/`filepath.WalkDir`: visit a
directory's entries in lexical name order; emit each entry's path relative
to the walk root (`pre` accumulates the prefix), directories with a
trailing `/` followed by their own entries, files plain.  The fuel
argument (instantiated with `entriesSize`, which bounds the recursion
depth) keeps the recursion structural. -/
def walkEntries : Nat → String → List (String × FsTree) → List String
  | 0, _, _ => []
  | fuel + 1, pre, es =>
    (sortEntries es).flatMap (fun e =>
      match e.2 with
      | .file _ => [pre ++ e.1]
      | .dir es2 => (pre ++ e.1 ++ "/") :: walkEntries fuel (pre ++ e.1 ++ "/") es2)

/-- `WalkDir` from a root: a file root only yields the root itself (which
`ListFiles` skips as `.`), a directory root yields its recursive entries. -/
def walkTree : FsTree → List String
  | .file _ => []
  | .dir es => walkEntries (entriesSize es) "" es

/-- Find a directory entry by name (`filepath.WalkDir`'s descent into a
named child). -/
def findEntry (name : String) : List (String × FsTree) → Option FsTree
  | [] => none
  | (n, t) :: rest => if n = name then some t else findEntry name rest

/-- Resolve a simple relative path (components separated by `/`) in the
tree rooted at the working directory; `.` is the root itself.  A missing
component is the `WalkDir` root error (`NotFound`). -/
def descendTree : FsTree → List String → Option FsTree
  | t, [] => some t
  | .file _, _ :: _ => none
  | .dir es, comp :: comps =>
    match findEntry comp es with
    | none => none
    | some t2 => descendTree t2 comps

def resolveDir (root : FsTree) (p : String) : Option FsTree :=
  if p = "." then some root
  else descendTree root ((splitOnSlash p.data).map String.mk)

/-- One hexadecimal digit, lower case (Go `encoding/json`'s `\u00XX`). -/
def hexDigit (n : Nat) : Char :=
  if n < 10 then Char.ofNat (48 + n) else Char.ofNat (87 + n)

/-- Go `encoding/json` string escaping: quotes, backslashes, newline,
carriage return and tab get two-character escapes; other control
characters and the HTML-escaped `<`, `>`, `&` become `\u00XX`. -/
def escapeChar (c : Char) : List Char :=
  if c = '"' then ['\\', '"']
  else if c = '\\' then ['\\', '\\']
  else if c = '\n' then ['\\', 'n']
  else if c = '\r' then ['\\', 'r']
  else if c = '\t' then ['\\', 't']
  else if c = '<' ∨ c = '>' ∨ c = '&' ∨ c.toNat < 32 then
    ['\\', 'u', '0', '0', hexDigit (c.toNat / 16), hexDigit (c.toNat % 16)]
  else [c]

def encodeJSONString (s : String) : String :=
  String.mk ('"' :: s.data.flatMap escapeChar ++ ['"'])

/-- `json.Marshal` of a `[]string` (the tool returns the marshalled list). -/
def encodeStringList (xs : List String) : String :=
  "[" ++ String.intercalate "," (xs.map encodeJSONString) ++ "]"

/-- `json.Unmarshal(input, &listFilesInput)`: the optional `path` field. -/
def structDecodeListFilesInput (input : Json) : Option String :=
  match input with
  | .null => some ""
  | .obj kvs => getStrField "path" kvs
  | _ => none

/-- The `ListFiles` tool `Function`: decode the optional `path` (default
`.`), walk the resolved directory recursively and return the
JSON-marshalled list of relative paths, directories marked with a
trailing `/`. -/
def ListFiles (input : Json) (root : FsTree) : ToolOutcome :=
  match structDecodeListFilesInput input with
  | none => .err "failed to parse input: json unmarshal error"
  | some p =>
    let dir := if p = "" then "." else p
    match resolveDir root dir with
    | none => .err "walk error: no such file or directory"
    | some t => .ok (encodeStringList (walkTree t))

/-- Specification-side characterisation of the entries `list_files` must
return for a directory with entry list `es`: every file and directory
recursively underneath, as a path relative to the root, directories with
a trailing separator. -/
inductive EntryOf : String → List (String × FsTree) → Prop where
  | fileEntry {name c : String} {es : List (String × FsTree)}
      (h : (name, FsTree.file c) ∈ es) : EntryOf name es
  | dirEntry {name : String} {es2 : List (String × FsTree)} {es : List (String × FsTree)}
      (h : (name, FsTree.dir es2) ∈ es) : EntryOf (name ++ "/") es
  | nested {name x : String} {es2 : List (String × FsTree)} {es : List (String × FsTree)}
      (h : (name, FsTree.dir es2) ∈ es) (hx : EntryOf x es2) :
      EntryOf (name ++ "/" ++ x) es


/-! ## Lemmas about the walk -/

theorem string_data_append (a b : String) : (a ++ b).data = a.data ++ b.data := by
  cases a; cases b; rfl

theorem string_append_assoc (a b c : String) : a ++ b ++ c = a ++ (b ++ c) := by
  cases a; cases b; cases c
  exact congrArg String.mk (List.append_assoc ..)

theorem string_empty_append (s : String) : "" ++ s = s := rfl

theorem perm_insertEntry (e : String × FsTree) (l : List (String × FsTree)) :
    List.Perm (insertEntry e l) (e :: l) := by
  induction l with
  | nil => rfl
  | cons f fs ih =>
    by_cases h : nameLe e.1.data f.1.data = true
    · rw [insertEntry, if_pos h]
    · rw [insertEntry, if_neg h]
      exact (ih.cons f).trans (List.Perm.swap e f fs)

theorem perm_sortEntries (l : List (String × FsTree)) : List.Perm (sortEntries l) l := by
  induction l with
  | nil => rfl
  | cons e es ih =>
    exact (perm_insertEntry e (sortEntries es)).trans (ih.cons e)

theorem entriesSize_lt_of_mem {name : String} {es2 es : List (String × FsTree)}
    (h : (name, FsTree.dir es2) ∈ es) : entriesSize es2 < entriesSize es := by
  induction es with
  | nil => cases h
  | cons f fs ih =>
    rcases List.mem_cons.mp h with heq | h2
    · rw [← heq]
      simp only [entriesSize, treeSize]
      omega
    · have := ih h2
      obtain ⟨nm, t⟩ := f
      simp only [entriesSize]
      omega

/-- The walk does not depend on the fuel, provided it is sufficient. -/
theorem walkEntries_fuel : ∀ (n m : Nat) (pre : String) (es : List (String × FsTree)),
    entriesSize es ≤ n → entriesSize es ≤ m →
    walkEntries n pre es = walkEntries m pre es := by
  intro n
  induction n with
  | zero =>
    intro m pre es hn hm
    have : 1 ≤ entriesSize es := by
      cases es with
      | nil => simp [entriesSize]
      | cons f fs => obtain ⟨nm, t⟩ := f; simp [entriesSize]; omega
    omega
  | succ n ih =>
    intro m pre es hn hm
    cases m with
    | zero =>
      have : 1 ≤ entriesSize es := by
        cases es with
        | nil => simp [entriesSize]
        | cons f fs => obtain ⟨nm, t⟩ := f; simp [entriesSize]; omega
      omega
    | succ m =>
      simp only [walkEntries]
      apply List.flatMap_congr
      intro e hmem
      have hmem' : e ∈ es := (perm_sortEntries es).mem_iff.mp hmem
      obtain ⟨nm, t⟩ := e
      cases t with
      | file c => rfl
      | dir es2 =>
        have hlt : entriesSize es2 < entriesSize es := entriesSize_lt_of_mem hmem'
        simp only []
        rw [ih m (pre ++ nm ++ "/") es2 (by omega) (by omega)]

/-- Factoring the accumulated prefix out of the walk: every emitted path
is the prefix followed by the path relative to the current directory. -/
theorem walkEntries_pre : ∀ (n : Nat) (pre : String) (es : List (String × FsTree)),
    entriesSize es ≤ n →
    walkEntries n pre es = (walkEntries n "" es).map (fun x => pre ++ x) := by
  intro n
  induction n with
  | zero => intro pre es h; rfl
  | succ n ih =>
    intro pre es h
    simp only [walkEntries, List.map_flatMap]
    apply List.flatMap_congr
    intro e hmem
    have hmem' : e ∈ es := (perm_sortEntries es).mem_iff.mp hmem
    obtain ⟨nm, t⟩ := e
    cases t with
    | file c =>
      rfl
    | dir es2 =>
      have hlt : entriesSize es2 < entriesSize es := entriesSize_lt_of_mem hmem'
      simp only [List.map_cons]
      rw [ih (pre ++ nm ++ "/") es2 (by omega), ih ("" ++ nm ++ "/") es2 (by omega),
        List.map_map]
      refine congrArg₂ List.cons ?_ ?_
      · rw [string_empty_append, string_append_assoc]
      · apply List.map_congr_left
        intro x _
        show (pre ++ nm ++ "/") ++ x = pre ++ (("" ++ nm ++ "/") ++ x)
        rw [string_empty_append, string_append_assoc, string_append_assoc,
          ← string_append_assoc nm "/" x]

theorem mem_of_entryOf {x : String} {es : List (String × FsTree)}
    (h : EntryOf x es) : ∀ n, entriesSize es ≤ n → x ∈ walkEntries n "" es := by
  induction h with
  | @fileEntry name c es h =>
    intro n hn
    cases n with
    | zero =>
      cases es with
      | nil => cases h
      | cons f fs =>
        obtain ⟨nm, t⟩ := f
        simp [entriesSize] at hn
    | succ n =>
      simp only [walkEntries, List.mem_flatMap]
      refine ⟨(name, .file c), (perm_sortEntries es).mem_iff.mpr h, ?_⟩
      exact List.mem_singleton.mpr rfl
  | @dirEntry name es2 es h =>
    intro n hn
    cases n with
    | zero =>
      have := entriesSize_lt_of_mem h
      omega
    | succ n =>
      simp only [walkEntries, List.mem_flatMap]
      refine ⟨(name, .dir es2), (perm_sortEntries es).mem_iff.mpr h, ?_⟩
      exact List.mem_cons_self _ _
  | @nested name x es2 es h hx ih =>
    intro n hn
    cases n with
    | zero =>
      have := entriesSize_lt_of_mem h
      omega
    | succ n =>
      simp only [walkEntries, List.mem_flatMap]
      refine ⟨(name, .dir es2), (perm_sortEntries es).mem_iff.mpr h, ?_⟩
      apply List.mem_cons_of_mem
      have hlt : entriesSize es2 < entriesSize es := entriesSize_lt_of_mem h
      rw [walkEntries_pre n ("" ++ name ++ "/") es2 (by omega)]
      refine List.mem_map.mpr ⟨x, ih n (by omega), ?_⟩
      show ("" ++ name ++ "/") ++ x = name ++ "/" ++ x
      rw [string_empty_append]

theorem entryOf_of_mem : ∀ (n : Nat) (es : List (String × FsTree)) (x : String),
    entriesSize es ≤ n → x ∈ walkEntries n "" es → EntryOf x es := by
  intro n
  induction n with
  | zero => intro es x hn hx; cases hx
  | succ n ih =>
    intro es x hn hx
    simp only [walkEntries, List.mem_flatMap] at hx
    obtain ⟨e, hmem, hx⟩ := hx
    have hmem' : e ∈ es := (perm_sortEntries es).mem_iff.mp hmem
    obtain ⟨nm, t⟩ := e
    cases t with
    | file c =>
      have : x = "" ++ nm := List.mem_singleton.mp hx
      subst this
      exact EntryOf.fileEntry hmem'
    | dir es2 =>
      have hlt : entriesSize es2 < entriesSize es := entriesSize_lt_of_mem hmem'
      rcases List.mem_cons.mp hx with heq | htail
      · subst heq
        exact EntryOf.dirEntry hmem'
      · rw [walkEntries_pre n ("" ++ nm ++ "/") es2 (by omega)] at htail
        obtain ⟨y, hy, hxy⟩ := List.mem_map.mp htail
        subst hxy
        exact EntryOf.nested hmem' (ih es2 y (by omega) hy)

/-- Entries never collapse to `.`: an emitted path is a top-level entry
name, or carries a `/` inside, so if no entry is named `.` the walk never
contains `.` (the root itself is never listed). -/
theorem cons_slash_ne_dot (l1 l2 : List Char) : l1 ++ '/' :: l2 ≠ ['.'] := by
  cases l1 with
  | nil =>
    intro h
    injection h with h1 h2
    exact absurd h1 (by decide)
  | cons a as =>
    intro h
    injection h with h1 h2
    exact absurd h2 (by simp)

theorem entryOf_ne_dot {x : String} {es : List (String × FsTree)}
    (h : EntryOf x es) (hwf : ∀ e ∈ es, e.1 ≠ ".") : x ≠ "." := by
  induction h with
  | @fileEntry name c es h => exact hwf _ h
  | @dirEntry name es2 es h =>
    intro heq
    have := congrArg String.data heq
    rw [string_data_append] at this
    exact cons_slash_ne_dot name.data [] this
  | @nested name x es2 es h hx ih =>
    intro heq
    have := congrArg String.data heq
    rw [string_data_append, string_data_append, List.append_assoc] at this
    exact cons_slash_ne_dot name.data x.data this

/-! ## The walk's per-directory lexical ordering -/

theorem nameLe_total : ∀ a b : List Char, nameLe a b = false → nameLe b a = true := by
  intro a
  induction a with
  | nil => intro b h; simp [nameLe] at h
  | cons x xs ih =>
    intro b h
    cases b with
    | nil => rfl
    | cons y ys =>
      rw [nameLe] at h
      by_cases hxy : x = y
      · rw [if_pos hxy] at h
        subst hxy
        rw [nameLe, if_pos rfl]
        exact ih ys h
      · rw [if_neg hxy] at h
        have hlt : ¬ x < y := by simpa using h
        have hyx : y < x := lt_of_le_of_ne (le_of_not_lt hlt) (Ne.symm hxy)
        rw [nameLe, if_neg (fun e => hxy e.symm)]
        simpa using hyx

/-- Adjacent entries of a sorted directory listing are in byte-wise name
order. -/
def entryNameLe (a b : String × FsTree) : Prop := nameLe a.1.data b.1.data = true

theorem chain_insertEntry (e : String × FsTree) (l : List (String × FsTree))
    (hl : List.Chain' entryNameLe l) : List.Chain' entryNameLe (insertEntry e l) := by
  induction l with
  | nil => simp [insertEntry]
  | cons f fs ih =>
    by_cases h : nameLe e.1.data f.1.data = true
    · rw [insertEntry, if_pos h]
      exact List.chain'_cons.mpr ⟨h, hl⟩
    · rw [insertEntry, if_neg h]
      have hfe : entryNameLe f e := nameLe_total _ _ (by simpa using h)
      cases fs with
      | nil =>
        simp [insertEntry, List.chain'_cons, hfe]
      | cons g gs =>
        rw [List.chain'_cons] at hl
        obtain ⟨hfg, hgs⟩ := hl
        have htail := ih hgs
        rw [insertEntry] at htail ⊢
        by_cases h2 : nameLe e.1.data g.1.data = true
        · rw [if_pos h2] at htail ⊢
          exact List.chain'_cons.mpr ⟨hfe, htail⟩
        · rw [if_neg h2] at htail ⊢
          exact List.chain'_cons.mpr ⟨hfg, htail⟩

theorem chain_sortEntries (es : List (String × FsTree)) :
    List.Chain' entryNameLe (sortEntries es) := by
  induction es with
  | nil => simp [sortEntries]
  | cons e es ih => exact chain_insertEntry e _ ih

/-- C7: for every resolvable directory path `p`, `list_files(p)` succeeds
and returns exactly the recursive entries of the directory (membership is
characterised by `EntryOf`: every file and directory underneath, as a path
relative to `p`, with a trailing `/` on directories), never lists the root
itself (`.` is not an entry when no child is named `.`), visits each
directory's entries in byte-wise lexical name order (the walk sorts every
level with `sortEntries`, whose output is `Chain'`-ordered), defaults to
`.` when no path argument is given, and on the spec's example tree yields
exactly `["a.txt", "b/", "b/c.txt"]`. -/
theorem claim_C7_list_files :
    (∀ (root : FsTree) (p : String) (t : FsTree), p ≠ "" → resolveDir root p = some t →
      ListFiles (Json.obj [("path", Json.str p)]) root =
        .ok (encodeStringList (walkTree t))) ∧
    (∀ root : FsTree, ListFiles (Json.obj []) root =
      ListFiles (Json.obj [("path", Json.str ".")]) root) ∧
    (∀ (es : List (String × FsTree)) (x : String) (n : Nat), entriesSize es ≤ n →
      (x ∈ walkEntries n "" es ↔ EntryOf x es)) ∧
    (∀ es : List (String × FsTree), (∀ e ∈ es, e.1 ≠ ".") →
      "." ∉ walkTree (.dir es)) ∧
    (∀ es : List (String × FsTree), List.Chain' entryNameLe (sortEntries es)) ∧
    walkTree (.dir [("b", .dir [("c.txt", .file "x")]), ("a.txt", .file "y")]) =
      ["a.txt", "b/", "b/c.txt"] := by
  refine ⟨?_, ?_, ?_, ?_, chain_sortEntries, rfl⟩
  · intro root p t hp hres
    simp only [ListFiles, structDecodeListFilesInput, getStrField, jsonLookup,
      ite_true, if_pos rfl]
    rw [if_neg hp, hres]
  · intro root
    rfl
  · intro es x n hn
    exact ⟨entryOf_of_mem n es x hn, fun h => mem_of_entryOf h n hn⟩
  · intro es hwf hmem
    exact entryOf_ne_dot (entryOf_of_mem (entriesSize es) es "." le_rfl hmem) hwf rfl

/-- Witness for C7 on the spec's example tree. -/
theorem claim_C7_witness :
    ListFiles (Json.obj [("path", Json.str ".")])
        (.dir [("b", .dir [("c.txt", .file "x")]), ("a.txt", .file "y")]) =
      .ok (encodeStringList
        (walkTree (.dir [("b", .dir [("c.txt", .file "x")]), ("a.txt", .file "y")]))) ∧
    ("c.txt" ∈ walkEntries (entriesSize [("c.txt", FsTree.file "x")]) ""
        [("c.txt", FsTree.file "x")] ↔ EntryOf "c.txt" [("c.txt", FsTree.file "x")]) ∧
    "." ∉ walkTree (.dir [("a.txt", FsTree.file "y")]) := by
  refine ⟨claim_C7_list_files.1 _ "." _ (by decide) rfl,
    claim_C7_list_files.2.2.1 _ _ _ le_rfl, ?_⟩
  apply claim_C7_list_files.2.2.2.1
  intro e he
  simp only [List.mem_singleton] at he
  subst he
  decide

/-! ## The agent loop (`Run` and `executeTool`) -/

/-- A `ToolDefinition` of the source: name, description shown to the
model, and the execution `Function`.  The input-schema field is omitted:
it only feeds capability advertisement, which no claim touches.  The
`Function` acts on an abstract tool state `St`; the registry below
instantiates `St` with the filesystem world. -/
structure ToolDefinition (St : Type) where
  name : String
  description : String
  fn : Json → St → ToolOutcome × St

/-- A content part of a model response: text, or a function call. -/
inductive RespPart where
  | text (s : String)
  | call (name : String) (args : Json)

/-- The text parts of a response, in arrival order (printed by the loop). -/
def textsOf (ps : List RespPart) : List String :=
  ps.filterMap (fun p => match p with | .text s => some s | .call _ _ => none)

/-- The tool calls of a response, in arrival order (collected by the loop). -/
def callsOf (ps : List RespPart) : List (String × Json) :=
  ps.filterMap (fun p => match p with | .text _ => none | .call n a => some (n, a))

/-- The response map `executeTool` builds for one call: `{"result": ...}`
on success or `{"error": ...}` on failure. -/
inductive ToolResponse where
  | result (s : String)
  | error (s : String)
deriving DecidableEq

/-- A message the loop sends to the Model Gateway: one user turn, or the
single follow-up message carrying all of a turn's tool responses
(`FunctionResponse` parts tagged with the originating call's name). -/
inductive GMsg where
  | userMsg (s : String)
  | toolMsg (resps : List (String × ToolResponse))

/-- `executeTool` of the source: look the name up in the registry (first
match); a missing tool yields the `tool not found` error response; a Go
error return becomes an error response, success a result response.  A
panicking tool (`ToolOutcome.panics`) has no response at all (`none`):
the panic propagates and kills the process. -/
def executeTool (tools : List (ToolDefinition St)) (name : String) (args : Json)
    (st : St) : Option ToolResponse × St :=
  match tools.find? (fun td => td.name == name) with
  | none => (some (.error "tool not found"), st)
  | some td =>
    match td.fn args st with
    | (.ok s, st') => (some (.result s), st')
    | (.err e, st') => (some (.error e), st')
    | (.panics, st') => (none, st')

/-- Dispatch a turn's tool calls in order, collecting exactly one
response per call; a panic aborts the turn (the already-executed prefix's
state changes remain). -/
def dispatchCalls (tools : List (ToolDefinition St)) :
    St → List (String × Json) → Option (List (String × ToolResponse)) × St
  | st, [] => (some [], st)
  | st, (n, args) :: rest =>
    match executeTool tools n args st with
    | (none, st') => (none, st')
    | (some r, st') =>
      match dispatchCalls tools st' rest with
      | (none, st'') => (none, st'')
      | (some rs, st'') => (some ((n, r) :: rs), st'')

/-- The observable outcome of processing user input: the conversation
trace (all messages sent to the gateway so far), the tool state, the
displayed text, and whether a tool panic killed the process. -/
structure TurnResult (St : Type) where
  trace : List GMsg
  state : St
  displayed : List String
  panicked : Bool

/-- One iteration of `Run`'s loop body for one line of user input: send
the user message, display the response's text parts, dispatch its tool
calls (if any), send all tool responses back in one follow-up message and
display only the follow-up's text parts.  `gw` is the Model Gateway
oracle: the response as a function of the conversation history. -/
def runTurn (gw : List GMsg → List RespPart) (tools : List (ToolDefinition St))
    (hist : List GMsg) (st : St) (input : String) : TurnResult St :=
  let hist1 := hist ++ [GMsg.userMsg input]
  let resp1 := gw hist1
  let calls := callsOf resp1
  if calls.isEmpty then ⟨hist1, st, textsOf resp1, false⟩
  else
    match dispatchCalls tools st calls with
    | (none, st') => ⟨hist1, st', textsOf resp1, true⟩
    | (some resps, st') =>
      let hist2 := hist1 ++ [GMsg.toolMsg resps]
      ⟨hist2, st', textsOf resp1 ++ textsOf (gw hist2), false⟩

/-- `Run`'s loop over the available user-input lines (the loop ends when
the input stream does; a panic ends the process at once). -/
def runLoop (gw : List GMsg → List RespPart) (tools : List (ToolDefinition St)) :
    List GMsg → St → List String → TurnResult St
  | hist, st, [] => ⟨hist, st, [], false⟩
  | hist, st, input :: rest =>
    let r := runTurn gw tools hist st input
    if r.panicked then r
    else
      let r2 := runLoop gw tools r.trace r.state rest
      ⟨r2.trace, r2.state, r.displayed ++ r2.displayed, r2.panicked⟩

/-- Number of tool-response messages in a trace (one per round of tool
execution). -/
def toolMsgCount (ms : List GMsg) : Nat :=
  (ms.filter (fun m => match m with | .toolMsg _ => true | .userMsg _ => false)).length

/-! ## The concrete registry of `main` -/

/-- The program's world: the flat filesystem seen by `read_file` and
`edit_file`, and the directory tree walked by `list_files` (two views of
the same working directory; no claim relates them to each other). -/
structure World where
  fs : FS
  tree : FsTree

/-- `json.Unmarshal(input, &readFileInput)`. -/
def readFileDecode (input : Json) : Option String :=
  match input with
  | .null => some ""
  | .obj kvs => getStrField "path" kvs
  | _ => none

/-- The `ReadFile` tool `Function`: return the file's content verbatim;
a decode failure or read error is returned as the Go error (which
`executeTool` wraps into an error response). -/
def ReadFile (input : Json) (fs : FS) : ToolOutcome :=
  match readFileDecode input with
  | none => .err "json unmarshal error"
  | some p =>
    match fsRead fs p with
    | .content c => .ok c
    | .notExist => .err ("open " ++ p ++ ": no such file or directory")
    | .isDir => .err ("read " ++ p ++ ": is a directory")

def readFileTool : ToolDefinition World :=
  ⟨"read_file",
    "Read the contents of a given relative file path. Use this when you want to see what's inside a file. Do not use this with directory names.",
    fun input w => (ReadFile input w.fs, w)⟩

def listFilesTool : ToolDefinition World :=
  ⟨"list_files",
    "List files and directories at a given path. If no path is provided, lists files in the current directory.",
    fun input w => (ListFiles input w.tree, w)⟩

def editFileTool : ToolDefinition World :=
  ⟨"edit_file",
    "Make edits to a text file.",
    fun input w =>
      match EditFile input w.fs with
      | (r, fs') => (r, { w with fs := fs' })⟩

/-- The registry built in `main`: the three tools, in order. -/
def registry : List (ToolDefinition World) := [readFileTool, listFilesTool, editFileTool]

/-! ## Properties of the loop -/

theorem dispatchCalls_spec {St : Type} (tools : List (ToolDefinition St)) :
    ∀ (calls : List (String × Json)) (st : St)
      (resps : List (String × ToolResponse)) (st' : St),
    dispatchCalls tools st calls = (some resps, st') →
    resps.length = calls.length ∧
    (∀ i : Nat, (resps[i]?).map Prod.fst = (calls[i]?).map Prod.fst) ∧
    (∀ (i : Nat) (nm : String) (args : Json), calls[i]? = some (nm, args) →
      (∀ td ∈ tools, td.name ≠ nm) →
      resps[i]? = some (nm, ToolResponse.error "tool not found")) := by
  intro calls
  induction calls with
  | nil =>
    intro st resps st' h
    simp only [dispatchCalls, Prod.mk.injEq] at h
    obtain ⟨h1, h2⟩ := h
    injection h1 with h1
    subst h1
    refine ⟨rfl, fun i => by simp, fun i nm args hcall _ => by simp at hcall⟩
  | cons c rest ih =>
    intro st resps st' h
    obtain ⟨n, args⟩ := c
    simp only [dispatchCalls] at h
    cases hex : executeTool tools n args st with
    | mk r1 st1 =>
      rw [hex] at h
      cases r1 with
      | none => simp at h
      | some r =>
        dsimp only at h
        cases hd : dispatchCalls tools st1 rest with
        | mk ro st2 =>
          rw [hd] at h
          cases ro with
          | none => simp at h
          | some rs =>
            dsimp only at h
            simp only [Prod.mk.injEq] at h
            obtain ⟨h1, h2⟩ := h
            injection h1 with h1
            subst h1 h2
            obtain ⟨ih1, ih2, ih3⟩ := ih st1 rs st2 hd
            refine ⟨by simp [ih1], ?_, ?_⟩
            · intro i
              cases i with
              | zero => simp
              | succ i => simpa using ih2 i
            · intro i nm args2 hcall hnot
              cases i with
              | zero =>
                simp only [List.getElem?_cons_zero, Option.some.injEq,
                  Prod.mk.injEq] at hcall
                obtain ⟨rfl, rfl⟩ := hcall
                have hfind : tools.find? (fun td => td.name == n) = none :=
                  List.find?_eq_none.mpr (fun td hmem => by
                    simpa using hnot td hmem)
                rw [executeTool, hfind] at hex
                simp only [Prod.mk.injEq] at hex
                obtain ⟨hex1, -⟩ := hex
                injection hex1 with hex1
                simp [← hex1]
              | succ i => simpa using ih3 i nm args2 (by simpa using hcall) hnot

theorem runTurn_trace_extends {St : Type} (gw : List GMsg → List RespPart)
    (tools : List (ToolDefinition St)) (hist : List GMsg) (st : St) (input : String) :
    ∃ suffix, (runTurn gw tools hist st input).trace = hist ++ suffix := by
  simp only [runTurn]
  split
  · exact ⟨[GMsg.userMsg input], rfl⟩
  · split
    · exact ⟨[GMsg.userMsg input], rfl⟩
    · rename_i rs st2 heq
      exact ⟨[GMsg.userMsg input, GMsg.toolMsg rs], by simp⟩

theorem runLoop_trace_extends {St : Type} (gw : List GMsg → List RespPart)
    (tools : List (ToolDefinition St)) :
    ∀ (inputs : List String) (hist : List GMsg) (st : St),
    ∃ suffix, (runLoop gw tools hist st inputs).trace = hist ++ suffix := by
  intro inputs
  induction inputs with
  | nil => intro hist st; exact ⟨[], by simp [runLoop]⟩
  | cons i rest ih =>
    intro hist st
    simp only [runLoop]
    obtain ⟨s1, hs1⟩ := runTurn_trace_extends gw tools hist st i
    split
    · exact ⟨s1, hs1⟩
    · obtain ⟨s2, hs2⟩ := ih (runTurn gw tools hist st i).trace
        (runTurn gw tools hist st i).state
      exact ⟨s1 ++ s2, by rw [hs2, hs1, List.append_assoc]⟩

theorem toolMsgCount_append (a b : List GMsg) :
    toolMsgCount (a ++ b) = toolMsgCount a + toolMsgCount b := by
  simp [toolMsgCount, List.filter_append]

theorem runLoop_cons_not_panicked {St : Type} (gw : List GMsg → List RespPart)
    (tools : List (ToolDefinition St)) (hist : List GMsg) (st : St)
    (input : String) (rest : List String)
    (h : (runTurn gw tools hist st input).panicked = false) :
    (runLoop gw tools hist st (input :: rest)).trace =
      (runLoop gw tools (runTurn gw tools hist st input).trace
        (runTurn gw tools hist st input).state rest).trace := by
  simp only [runLoop]
  rw [if_neg (by simp [h])]

/-! ## Claims about the agent loop -/

/-- C1 (code bug evaluation): whenever dispatch completes, the loop
produces exactly one name-tagged ToolResult per tool call, in order, with
`tool not found` for names missing from the registry, and sends them all
in ONE follow-up message appended to the turn's trace before any later
turn's message (first two conjuncts).  The invariant is broken by the
code, however: a call whose arguments make `edit_file`'s recovery branch
panic kills the loop with ZERO ToolResults sent — the trace ends at the
user message and the turn is marked panicked (last conjunct). -/
theorem claim_C1_tool_results :
    (∀ (St : Type) (tools : List (ToolDefinition St)) (calls : List (String × Json))
        (st : St) (resps : List (String × ToolResponse)) (st' : St),
      dispatchCalls tools st calls = (some resps, st') →
      resps.length = calls.length ∧
      (∀ i : Nat, (resps[i]?).map Prod.fst = (calls[i]?).map Prod.fst) ∧
      (∀ (i : Nat) (nm : String) (args : Json), calls[i]? = some (nm, args) →
        (∀ td ∈ tools, td.name ≠ nm) →
        resps[i]? = some (nm, ToolResponse.error "tool not found"))) ∧
    (∀ (St : Type) (tools : List (ToolDefinition St)) (gw : List GMsg → List RespPart)
        (hist : List GMsg) (st : St) (input : String)
        (resps : List (String × ToolResponse)) (st' : St),
      dispatchCalls tools st (callsOf (gw (hist ++ [GMsg.userMsg input]))) =
        (some resps, st') →
      callsOf (gw (hist ++ [GMsg.userMsg input])) ≠ [] →
      (runTurn gw tools hist st input).trace =
        hist ++ [GMsg.userMsg input, GMsg.toolMsg resps] ∧
      (∀ rest, ∃ later, (runLoop gw tools hist st (input :: rest)).trace =
        hist ++ [GMsg.userMsg input, GMsg.toolMsg resps] ++ later)) ∧
    runTurn (fun _ => [RespPart.call "edit_file" (Json.obj [("old_str", Json.num 5)])])
        registry [] ⟨⟨[], []⟩, .dir []⟩ "edit" =
      ⟨[GMsg.userMsg "edit"], ⟨⟨[], []⟩, .dir []⟩, [], true⟩ := by
  refine ⟨fun St tools => dispatchCalls_spec tools, ?_, rfl⟩
  intro St tools gw hist st input resps st' hdisp hne
  have hrt : runTurn gw tools hist st input =
      ⟨(hist ++ [GMsg.userMsg input]) ++ [GMsg.toolMsg resps], st',
        textsOf (gw (hist ++ [GMsg.userMsg input])) ++
          textsOf (gw ((hist ++ [GMsg.userMsg input]) ++ [GMsg.toolMsg resps])),
        false⟩ := by
    rcases hC : callsOf (gw (hist ++ [GMsg.userMsg input])) with _ | ⟨c, cs⟩
    · exact absurd hC hne
    · rw [hC] at hdisp
      simp only [runTurn, hC, hdisp, List.isEmpty_cons, Bool.false_eq_true, if_false]
  constructor
  · rw [hrt]
    simp
  · intro rest
    have hp : (runTurn gw tools hist st input).panicked = false := by rw [hrt]
    obtain ⟨later, hlater⟩ := runLoop_trace_extends gw tools rest
      (runTurn gw tools hist st input).trace (runTurn gw tools hist st input).state
    refine ⟨later, ?_⟩
    rw [runLoop_cons_not_panicked gw tools hist st input rest hp, hlater, hrt]
    simp [List.append_assoc]

/-- Witness for C1: the spec's example scenario — one turn whose response
carries an unknown-name call and a `read_file` call — yields exactly two
ToolResults, the first `tool not found`, the second the tool's normal
result, both in one follow-up message right after the user message. -/
theorem claim_C1_witness :
    (([("bogus", ToolResponse.error "tool not found"),
       ("read_file", ToolResponse.result "hello")] :
        List (String × ToolResponse)).length =
      ([("bogus", Json.obj []),
        ("read_file", Json.obj [("path", Json.str "a.txt")])] :
        List (String × Json)).length) ∧
    (runTurn (fun h =>
        if h.length = 1 then
          [RespPart.call "bogus" (Json.obj []),
           RespPart.call "read_file" (Json.obj [("path", Json.str "a.txt")])]
        else [RespPart.text "done"])
      registry [] ⟨⟨[("a.txt", "hello")], []⟩, .dir []⟩ "go").trace =
      [] ++ [GMsg.userMsg "go",
        GMsg.toolMsg [("bogus", ToolResponse.error "tool not found"),
          ("read_file", ToolResponse.result "hello")]] := by
  constructor
  · exact (claim_C1_tool_results.1 World registry
      [("bogus", Json.obj []), ("read_file", Json.obj [("path", Json.str "a.txt")])]
      (⟨⟨[("a.txt", "hello")], []⟩, .dir []⟩ : World)
      [("bogus", ToolResponse.error "tool not found"),
       ("read_file", ToolResponse.result "hello")]
      (⟨⟨[("a.txt", "hello")], []⟩, .dir []⟩ : World) rfl).1
  · exact (claim_C1_tool_results.2.1 World registry
      (fun h =>
        if h.length = 1 then
          [RespPart.call "bogus" (Json.obj []),
           RespPart.call "read_file" (Json.obj [("path", Json.str "a.txt")])]
        else [RespPart.text "done"])
      [] (⟨⟨[("a.txt", "hello")], []⟩, .dir []⟩ : World) "go"
      [("bogus", ToolResponse.error "tool not found"),
       ("read_file", ToolResponse.result "hello")]
      (⟨⟨[("a.txt", "hello")], []⟩, .dir []⟩ : World) rfl
      (fun hcontra => List.noConfusion hcontra)).1

/-- C8: the follow-up response after the tool round is display-only.  For
two gateways that agree on the first response of the turn but answer the
follow-up arbitrarily (in particular with further tool calls), the
resulting state, trace and panic status are identical — so tool calls in
the follow-up are never dispatched; the displayed output after the tool
round is exactly the text parts of the follow-up; and a turn adds at most
one tool-response message to the trace (a single round of tool execution
per user turn). -/
theorem claim_C8_no_redispatch :
    ∀ (St : Type) (tools : List (ToolDefinition St))
      (gw gw' : List GMsg → List RespPart) (hist : List GMsg) (st : St)
      (input : String),
    gw (hist ++ [GMsg.userMsg input]) = gw' (hist ++ [GMsg.userMsg input]) →
    ((runTurn gw tools hist st input).state = (runTurn gw' tools hist st input).state ∧
     (runTurn gw tools hist st input).trace = (runTurn gw' tools hist st input).trace ∧
     (runTurn gw tools hist st input).panicked =
       (runTurn gw' tools hist st input).panicked) ∧
    ((runTurn gw tools hist st input).panicked = false →
      callsOf (gw (hist ++ [GMsg.userMsg input])) ≠ [] →
      (runTurn gw tools hist st input).displayed =
        textsOf (gw (hist ++ [GMsg.userMsg input])) ++
          textsOf (gw ((runTurn gw tools hist st input).trace))) ∧
    toolMsgCount (runTurn gw tools hist st input).trace ≤ toolMsgCount hist + 1 := by
  intro St tools gw gw' hist st input h
  rcases hC : callsOf (gw (hist ++ [GMsg.userMsg input])) with _ | ⟨c, cs⟩
  · have hrt : runTurn gw tools hist st input =
        ⟨hist ++ [GMsg.userMsg input], st,
          textsOf (gw (hist ++ [GMsg.userMsg input])), false⟩ := by
      simp only [runTurn, hC, List.isEmpty_nil, if_true]
    have hrt' : runTurn gw' tools hist st input =
        ⟨hist ++ [GMsg.userMsg input], st,
          textsOf (gw' (hist ++ [GMsg.userMsg input])), false⟩ := by
      simp only [runTurn, ← h, hC, List.isEmpty_nil, if_true]
    refine ⟨⟨by rw [hrt, hrt'], by rw [hrt, hrt'], by rw [hrt, hrt']⟩, ?_, ?_⟩
    · intro hp hne
      exact absurd rfl hne
    · rw [hrt]
      simp [toolMsgCount_append, toolMsgCount]
  · cases hd : dispatchCalls tools st (c :: cs) with
    | mk ro st2 =>
      cases ro with
      | none =>
        have hrt : runTurn gw tools hist st input =
            ⟨hist ++ [GMsg.userMsg input], st2,
              textsOf (gw (hist ++ [GMsg.userMsg input])), true⟩ := by
          simp only [runTurn, hC, hd, List.isEmpty_cons, Bool.false_eq_true, if_false]
        have hrt' : runTurn gw' tools hist st input =
            ⟨hist ++ [GMsg.userMsg input], st2,
              textsOf (gw' (hist ++ [GMsg.userMsg input])), true⟩ := by
          simp only [runTurn, ← h, hC, hd, List.isEmpty_cons, Bool.false_eq_true,
            if_false]
        refine ⟨⟨by rw [hrt, hrt'], by rw [hrt, hrt'], by rw [hrt, hrt']⟩, ?_, ?_⟩
        · intro hp
          rw [hrt] at hp
          exact absurd hp (by simp)
        · rw [hrt]
          simp [toolMsgCount_append, toolMsgCount]
      | some resps =>
        have hrt : runTurn gw tools hist st input =
            ⟨(hist ++ [GMsg.userMsg input]) ++ [GMsg.toolMsg resps], st2,
              textsOf (gw (hist ++ [GMsg.userMsg input])) ++
                textsOf (gw ((hist ++ [GMsg.userMsg input]) ++ [GMsg.toolMsg resps])),
              false⟩ := by
          simp only [runTurn, hC, hd, List.isEmpty_cons, Bool.false_eq_true, if_false]
        have hrt' : runTurn gw' tools hist st input =
            ⟨(hist ++ [GMsg.userMsg input]) ++ [GMsg.toolMsg resps], st2,
              textsOf (gw (hist ++ [GMsg.userMsg input])) ++
                textsOf (gw' ((hist ++ [GMsg.userMsg input]) ++ [GMsg.toolMsg resps])),
              false⟩ := by
          simp only [runTurn, ← h, hC, hd, List.isEmpty_cons, Bool.false_eq_true,
            if_false]
        refine ⟨⟨by rw [hrt, hrt'], by rw [hrt, hrt'], by rw [hrt, hrt']⟩, ?_, ?_⟩
        · intro hp hne
          rw [hrt]
        · rw [hrt]
          simp [toolMsgCount_append, toolMsgCount]

/-- A toy tool over `Nat` state for the C8 witness: each execution
increments the state. -/
def pingTool : ToolDefinition Nat :=
  ⟨"ping", "test tool", fun _ n => (.ok "pong", n + 1)⟩

/-- First-turn gateway answer shared by the two C8 witness gateways. -/
def pingCallResp : List RespPart := [RespPart.call "ping" (Json.obj [])]

/-- Witness gateway whose follow-up response contains a further tool
call. -/
def gwWithFollowupCall : List GMsg → List RespPart := fun h =>
  if h.length = 1 then pingCallResp
  else [RespPart.text "ok", RespPart.call "ping" (Json.obj [])]

/-- Witness gateway whose follow-up response is plain text. -/
def gwWithFollowupText : List GMsg → List RespPart := fun h =>
  if h.length = 1 then pingCallResp else [RespPart.text "other"]

/-- Witness for C8: the two gateways agree on the turn's first response;
one answers the follow-up with another tool call, the other with text —
state, trace and panic status still coincide (the extra call is never
dispatched), the displayed output after the round is the follow-up's text
parts, and the trace gained exactly one tool message. -/
theorem claim_C8_witness :
    ((runTurn gwWithFollowupCall [pingTool] [] 0 "x").state =
        (runTurn gwWithFollowupText [pingTool] [] 0 "x").state ∧
     (runTurn gwWithFollowupCall [pingTool] [] 0 "x").trace =
        (runTurn gwWithFollowupText [pingTool] [] 0 "x").trace ∧
     (runTurn gwWithFollowupCall [pingTool] [] 0 "x").panicked =
        (runTurn gwWithFollowupText [pingTool] [] 0 "x").panicked) ∧
    ((runTurn gwWithFollowupCall [pingTool] [] 0 "x").panicked = false →
      callsOf (gwWithFollowupCall ([] ++ [GMsg.userMsg "x"])) ≠ [] →
      (runTurn gwWithFollowupCall [pingTool] [] 0 "x").displayed =
        textsOf (gwWithFollowupCall ([] ++ [GMsg.userMsg "x"])) ++
          textsOf (gwWithFollowupCall
            ((runTurn gwWithFollowupCall [pingTool] [] 0 "x").trace))) ∧
    toolMsgCount (runTurn gwWithFollowupCall [pingTool] [] 0 "x").trace ≤
      toolMsgCount [] + 1 :=
  claim_C8_no_redispatch Nat [pingTool] gwWithFollowupCall gwWithFollowupText
    [] 0 "x" rfl
